import Mathlib

/-!
Verification development for the document-tree-editor repository
(src/index.js).

The editor stores an ordered rooted tree of labeled nodes (in the source,
nested `ul`/`li` DOM elements whose first child is a text input carrying
the label).  We embed that data model as a rose tree `TreeNode`; a DOM element
is identified by its path (the list of child indices from the root list),
which is how we expose element identity of the visited `li` items to the
visitor callbacks of the traversal.

The core algorithm `_prefix(activeList, depth, processor, spacers)` is
embedded as `pfxWalk`; the mutable state threaded through the `processor`
closure (the growing export string of `toString`, and the
`dataset` annotations of `render`) becomes the fold state of the walk.
-/

set_option maxHeartbeats 1000000

/-- A node of the editor tree: a label (the text input's value) and an
ordered list of children (the nested `ul`'s `li` items, in DOM order).
The DOM distinction between "no `ul`" and "an empty `ul`" is irrelevant to
every operation modelled here (both give an empty iteration), so children
are just a list. -/
inductive TreeNode : Type where
  | node (label : String) (children : List TreeNode) : TreeNode

/-- The label of a node (`input.value`). -/
def TreeNode.label : TreeNode → String
  | .node l _ => l

/-- The ordered children of a node. -/
def TreeNode.children : TreeNode → List TreeNode
  | .node _ cs => cs

@[simp] theorem TreeNode.label_node (l : String) (cs : List TreeNode) :
    (TreeNode.node l cs).label = l := rfl

@[simp] theorem TreeNode.children_node (l : String) (cs : List TreeNode) :
    (TreeNode.node l cs).children = cs := rfl

theorem TreeNode.sizeOf_children_lt (t : TreeNode) :
    sizeOf t.children < sizeOf t := by
  cases t with
  | node l cs => simp only [TreeNode.children_node, TreeNode.node.sizeOf_spec]; omega

/-- The connector/spacer tokens, read by the algorithm from the global
`prefix` object of src/index.js. -/
structure PfxTokens : Type where
  branch : String
  branch_last : String
  spacer_branch : String
  spacer_empty : String

/-- The default token values of the `prefix` object
(src/index.js lines 57-61). -/
def pfxTokens : PfxTokens :=
  { branch := "|--"
  , branch_last := "\\--"
  , spacer_branch := "|   "
  , spacer_empty := "    " }

mutual

/-- The body of the loop of `_prefix` for one visited `li` item (with
`last = (i === l - 1)` computed by the loop): invoke the processor with
the item and its computed prefix string, then walk the item's child list
with the extended copy of `spacers` (`spacers.slice()` followed by
`arr.push(...)`). -/
def pfxWalkItem (cfg : PfxTokens) (f : σ → List Nat → TreeNode → String → σ)
    (base : List Nat) (i depth : Nat) (spacers : List String) (last : Bool)
    (s : σ) : TreeNode → σ
  | TreeNode.node lbl cs =>
    pfxWalkAux cfg f (base ++ [i]) 0 (depth + 1)
      (spacers ++ [if last then cfg.spacer_empty else cfg.spacer_branch]) false
      (f s (base ++ [i]) (TreeNode.node lbl cs)
        (String.join spacers ++ (if last then cfg.branch_last else cfg.branch)))
      cs

/-- The loop of `_prefix` over a child list.  The Boolean parameter is an
artifact of the structural-recursion encoding (both mutual functions must
share a parameter telescope) and is never read. -/
def pfxWalkAux (cfg : PfxTokens) (f : σ → List Nat → TreeNode → String → σ)
    (base : List Nat) (i depth : Nat) (spacers : List String) (unused : Bool)
    (s : σ) : List TreeNode → σ
  | [] => s
  | t :: rest =>
    pfxWalkAux cfg f base (i + 1) depth spacers unused
      (pfxWalkItem cfg f base i depth spacers rest.isEmpty s t) rest

end

/-- Embedding of `editor._prefix(activeList, depth, processor, spacers)`
(src/index.js lines 364-377).  `f` is the `processor` callback threading
mutable state `s`; it receives the visited item (identified by its path
`base ++ [i]` together with the node itself) and the computed string
`spacers.join('') + (last ? prefix.branch_last : prefix.branch)`.
Recursion into a child list pushes `last ? spacer_empty : spacer_branch`
onto a copy of `spacers`.  `depth` is passed (and incremented) exactly as
in the source, where it is otherwise unused. -/
def pfxWalk (cfg : PfxTokens) (f : σ → List Nat → TreeNode → String → σ)
    (base : List Nat) (i depth : Nat) (spacers : List String) (s : σ)
    (ts : List TreeNode) : σ :=
  pfxWalkAux cfg f base i depth spacers false s ts

theorem pfxWalk_nil (cfg : PfxTokens) (f : σ → List Nat → TreeNode → String → σ)
    (base : List Nat) (i depth : Nat) (spacers : List String) (s : σ) :
    pfxWalk cfg f base i depth spacers s [] = s := rfl

theorem pfxWalk_cons (cfg : PfxTokens) (f : σ → List Nat → TreeNode → String → σ)
    (base : List Nat) (i depth : Nat) (spacers : List String) (s : σ)
    (t : TreeNode) (rest : List TreeNode) :
    pfxWalk cfg f base i depth spacers s (t :: rest) =
      pfxWalk cfg f base (i + 1) depth spacers
        (pfxWalk cfg f (base ++ [i]) 0 (depth + 1)
          (spacers ++ [if rest.isEmpty then cfg.spacer_empty else cfg.spacer_branch])
          (f s (base ++ [i]) t
            (String.join spacers ++ (if rest.isEmpty then cfg.branch_last else cfg.branch)))
          t.children)
        rest := by
  cases t
  rfl

/-- The placeholder of every non-root text input
(src/index.js line 26: `el.placeholder = 'Directory or File Name'`). -/
def inputPlaceholder : String := "Directory or File Name"

/-- `input.value || input.placeholder` for a non-root input: the empty
string is falsy in JS. -/
def effLabel (t : TreeNode) : String :=
  if t.label = "" then inputPlaceholder else t.label

/-- JS whitespace test: exactly the characters `String.prototype.trim`
strips per ECMAScript (TrimString), i.e. WhiteSpace ∪ LineTerminator:
TAB, LF, VT, FF, CR, SPACE, NBSP U+00A0, OGHAM SPACE U+1680, the U+2000
to U+200A space separators, LINE SEPARATOR U+2028, PARAGRAPH SEPARATOR
U+2029, NARROW NBSP U+202F, MEDIUM MATH SPACE U+205F, IDEOGRAPHIC SPACE
U+3000, and ZWNBSP U+FEFF. -/
def isWsChar (c : Char) : Bool :=
  c == ' ' || c == '\t' || c == '\n' || c == '\r' ||
  c == '\x0b' || c == '\x0c' ||
  c == '\u00A0' || c == '\u1680' ||
  (0x2000 ≤ c.toNat && c.toNat ≤ 0x200A) ||
  c == '\u2028' || c == '\u2029' || c == '\u202F' ||
  c == '\u205F' || c == '\u3000' || c == '\uFEFF'

/-- Embedding of JS `String.prototype.trim`: drop whitespace from both
ends. -/
def jsTrimData (cs : List Char) : List Char :=
  ((cs.dropWhile isWsChar).reverse.dropWhile isWsChar).reverse

/-- `s.trim()`. -/
def jsTrim (s : String) : String := ⟨jsTrimData s.data⟩

/-- Embedding of `editor.toString()` (src/index.js lines 158-165):
start from `root.value || root.placeholder`, run `_prefix` with the
processor appending `"\n" + prefix + " " + (input.value || input.placeholder)`
to the growing string, then `.trim()` the result.  The root input's
placeholder attribute lives in index.html (not under src/), so it is a
parameter `rootPh`. -/
def treeToString (cfg : PfxTokens) (rootPh : String) (t : TreeNode) : String :=
  jsTrim (pfxWalk cfg
    (fun s _path item pre => s ++ "\n" ++ pre ++ " " ++ effLabel item)
    [] 0 0 [] (if t.label = "" then rootPh else t.label) t.children)

/-- Embedding of `editor.render()` (src/index.js lines 170-174): run
`_prefix` with the processor `item.dataset.prefix = prefix`.  The run is
modelled by its trace: the list of `(path, item, prefixString)` processor
calls, in visit order; since every item is visited exactly once, this is
the resulting annotation of the DOM. -/
def render (cfg : PfxTokens) (t : TreeNode) : List (List Nat × TreeNode × String) :=
  pfxWalk cfg (fun acc path item pre => acc ++ [(path, item, pre)])
    [] 0 0 [] [] t.children

/-- The editor's observable state for the render path: the tree plus the
per-element `dataset.prefix` annotation. -/
structure EditorState : Type where
  tree : TreeNode
  annots : List (List Nat × String)

/-- One `editor.render()` call as a state transformer: it recomputes every
element's `dataset.prefix` from the current tree and leaves the tree
itself untouched. -/
def renderState (cfg : PfxTokens) (st : EditorState) : EditorState :=
  { tree := st.tree
  , annots := (render cfg st.tree).map (fun e => (e.1, e.2.2)) }

/-- Look up a node by its path of child indices. -/
def TreeNode.get? (t : TreeNode) : List Nat → Option TreeNode
  | [] => some t
  | i :: is => (t.children.get? i).bind fun c => c.get? is

/-- Replace the node at a path by `f` of it (rebuilding the spine). -/
def TreeNode.modifyAt (t : TreeNode) : List Nat → (TreeNode → TreeNode) → Option TreeNode
  | [], f => some (f t)
  | i :: is, f =>
    (t.children.get? i).bind fun c =>
      (c.modifyAt is f).map fun c2 => TreeNode.node t.label (t.children.set i c2)

/-- Embedding of `parentNode.removeChild(branch)` for the branch at the
given (non-root) path: the branch and its whole subtree are detached. -/
def TreeNode.removeAt (t : TreeNode) : List Nat → Option TreeNode
  | [] => none
  | [i] =>
    if i < t.children.length then
      some (TreeNode.node t.label (t.children.eraseIdx i))
    else none
  | i :: is =>
    (t.children.get? i).bind fun c =>
      (c.removeAt is).map fun c2 => TreeNode.node t.label (t.children.set i c2)

/-- Total node count of a tree (used to show removal really changes it). -/
def TreeNode.size : TreeNode → Nat
  | .node _ cs => 1 + sizeList cs
  where sizeList : List TreeNode → Nat
    | [] => 0
    | t :: ts => t.size + sizeList ts

/-- Embedding of `editor.clear()`'s loop (src/index.js lines 243-249):
`while (children.length) { list.removeChild(children[0]); }`. -/
def clearLoop : List TreeNode → List TreeNode
  | [] => []
  | _ :: rest => clearLoop rest

/-- Embedding of `editor.clear()`: run the removal loop over the root's
child list; the root input itself is not touched. -/
def clearModel (t : TreeNode) : TreeNode :=
  TreeNode.node t.label (clearLoop t.children)

/-- A freshly created branch: `newNode.li` with an empty `newNode.input`
(src/index.js lines 17-29); its input value is the empty string. -/
def emptyBranch : TreeNode := TreeNode.node "" []

/-- Embedding of `editor.addSibling(branch)` (src/index.js lines 196-203)
for the branch at the given path: a fresh empty-labeled branch is appended
as the last child of the branch's parent (`branch.parentNode.appendChild`).
Modelled from the spec for the root path: the root input's `li` has no
parent inside the tree (its surroundings live in index.html, which is not
under src/), and the UI hides the addSibling affordance for the root
(src/index.js lines 255-268), so the operation fails/no-ops there. -/
def addSiblingModel (t : TreeNode) (path : List Nat) : Option TreeNode :=
  match path with
  | [] => none
  | _ :: _ =>
    t.modifyAt path.dropLast fun par =>
      TreeNode.node par.label (par.children ++ [emptyBranch])

/-- Recompute the document path of a surviving element reference after the
subtree at `src` has been detached: a later sibling of `src` (or a node
inside such a sibling) shifts down by one at the level of `src`'s last
index; every other surviving path is untouched.  This models that
`_moveBranch` holds the destination as a DOM reference, not as a path. -/
def adjustPath : List Nat → List Nat → List Nat
  | [i], j :: rest => if i < j then (j - 1) :: rest else j :: rest
  | i :: is, j :: rest => if i = j then j :: adjustPath is rest else j :: rest
  | _, d => d

/-- Embedding of `editor._moveBranch` (src/index.js lines 288-300) invoked
with the armed branch at `src` and the hovered destination at `dest`
(paths in the pre-move tree).  The source first executes
`activeBranch.parentNode.removeChild(activeBranch)` and only then
`ul.appendChild(activeBranch)` on the destination's child list; when the
destination is the moving branch itself or one of its descendants, that
`appendChild` throws `HierarchyRequestError` (a node cannot be inserted
into its own subtree), so the run ends with the branch detached.  The
result is `(succeeded?, resulting tree)`. -/
def moveBranchModel (t : TreeNode) (src dest : List Nat) : Bool × TreeNode :=
  match t.get? src, t.removeAt src with
  | some sub, some t1 =>
    if src.isPrefixOf dest then
      (false, t1)
    else
      match t1.modifyAt (adjustPath src dest) (fun n =>
          TreeNode.node n.label (n.children ++ [sub])) with
      | some t2 => (true, t2)
      | none => (false, t1)
  | _, _ => (false, t)

/-- Embedding of `editor.deleteBranch(branch)` (src/index.js lines
234-238): `branch.parentNode.removeChild(branch)`. -/
def deleteBranchModel (t : TreeNode) (path : List Nat) : Option TreeNode :=
  t.removeAt path

mutual

/-- The trace entry of one visited item followed by the trace of its
child list. -/
def annotsItem (cfg : PfxTokens) (base : List Nat) (i : Nat)
    (spacers : List String) (last : Bool) :
    TreeNode → List (List Nat × TreeNode × String)
  | TreeNode.node lbl cs =>
    (base ++ [i], TreeNode.node lbl cs,
      String.join spacers ++ (if last then cfg.branch_last else cfg.branch))
      :: annotsAuxGo cfg (base ++ [i]) 0
          (spacers ++ [if last then cfg.spacer_empty else cfg.spacer_branch]) false cs

/-- The trace of processor calls of the walk over a child list.  The
Boolean parameter is an artifact of the structural-recursion encoding and
is never read. -/
def annotsAuxGo (cfg : PfxTokens) (base : List Nat) (i : Nat)
    (spacers : List String) (unused : Bool) :
    List TreeNode → List (List Nat × TreeNode × String)
  | [] => []
  | t :: rest =>
    annotsItem cfg base i spacers rest.isEmpty t
      ++ annotsAuxGo cfg base (i + 1) spacers unused rest

end

/-- The trace of processor calls of `_prefix` (the entries of `render`),
written as a directly recursive list so that it can be related to the
fold `pfxWalk` on the one hand and to per-path lookups on the other. -/
def annotsAux (cfg : PfxTokens) (base : List Nat) (i : Nat)
    (spacers : List String) (ts : List TreeNode) :
    List (List Nat × TreeNode × String) :=
  annotsAuxGo cfg base i spacers false ts

theorem annotsAux_nil (cfg : PfxTokens) (base : List Nat) (i : Nat)
    (spacers : List String) : annotsAux cfg base i spacers [] = [] := rfl

theorem annotsAux_cons (cfg : PfxTokens) (base : List Nat) (i : Nat)
    (spacers : List String) (t : TreeNode) (rest : List TreeNode) :
    annotsAux cfg base i spacers (t :: rest) =
      (base ++ [i], t,
        String.join spacers ++ (if rest.isEmpty then cfg.branch_last else cfg.branch))
        :: (annotsAux cfg (base ++ [i]) 0
              (spacers ++ [if rest.isEmpty then cfg.spacer_empty else cfg.spacer_branch])
              t.children
            ++ annotsAux cfg base (i + 1) spacers rest) := by
  cases t
  rfl

/-- First-match lookup of an annotation by element path. -/
def findAnnot (p : List Nat) : List (List Nat × TreeNode × String) →
    Option (List Nat × TreeNode × String)
  | [] => none
  | e :: es => if e.1 = p then some e else findAnnot p es

/-- The prefix string the algorithm computes for the element at a path:
look the path up in the trace of `render`. -/
def pfxAt (cfg : PfxTokens) (t : TreeNode) (p : List Nat) : Option String :=
  (findAnnot p (render cfg t)).map fun e => e.2.2

/-- Per-path recomputation of the walk: follow the path through the
forest, accumulating the spacer for each traversed level, and emit the
connector at the final step.  Returns the node together with its computed
prefix string. -/
def pathPfx (cfg : PfxTokens) (spacers : List String) :
    List TreeNode → List Nat → Option (TreeNode × String)
  | _, [] => none
  | ts, [i] =>
    (ts.get? i).map fun c =>
      (c, String.join spacers ++ (if i + 1 = ts.length then cfg.branch_last else cfg.branch))
  | ts, i :: is =>
    (ts.get? i).bind fun c =>
      pathPfx cfg
        (spacers ++ [if i + 1 = ts.length then cfg.spacer_empty else cfg.spacer_branch])
        c.children is

/-- Stated from the claim (C2): the spacer segment contributed by each
proper ancestor below the root, root-most first — four spaces if that
ancestor was the last among its own siblings, pipe plus three spaces
otherwise.  The final entry of the path (the node itself) contributes no
segment. -/
def ancestorSegsAux : List TreeNode → List Nat → Option (List String)
  | _, [] => none
  | ts, [i] => if i < ts.length then some [] else none
  | ts, i :: is =>
    (ts.get? i).bind fun c =>
      (ancestorSegsAux c.children is).map fun segs =>
        (if i + 1 = ts.length then "    " else "|   ") :: segs

/-- `ancestorSegsAux` from the root. -/
def ancestorSegs (t : TreeNode) (p : List Nat) : Option (List String) :=
  ancestorSegsAux t.children p

/-- The chain of `isLast` flags along a path: one Boolean per path entry,
recording whether that entry is the last among its siblings.  This is the
only information about a tree that the prefix of the node at the path can
depend on. -/
def chainSig : List TreeNode → List Nat → Option (List Bool)
  | _, [] => some []
  | ts, i :: is =>
    (ts.get? i).bind fun c =>
      (chainSig c.children is).map fun l => decide (i + 1 = ts.length) :: l

/-- The prefix string determined by a chain of `isLast` flags: spacers for
the ancestors, connector for the node itself. -/
def sigString (cfg : PfxTokens) : List Bool → String
  | [] => ""
  | [b] => if b then cfg.branch_last else cfg.branch
  | b :: rest => (if b then cfg.spacer_empty else cfg.spacer_branch) ++ sigString cfg rest

theorem String.join_cons (a : String) (l : List String) :
    String.join (a :: l) = a ++ String.join l := by
  apply String.ext
  simp [String.data_append]

theorem String.join_append_single (l : List String) (a : String) :
    String.join (l ++ [a]) = String.join l ++ a := by
  apply String.ext
  simp [String.data_append]

/-- `pfxWalk` is the fold of its processor over the trace `annotsAux`. -/
theorem pfxWalk_eq_foldl (cfg : PfxTokens) (f : σ → List Nat → TreeNode → String → σ) :
    ∀ (ts : List TreeNode) (base : List Nat) (i depth : Nat)
      (spacers : List String) (s : σ),
      pfxWalk cfg f base i depth spacers s ts =
        (annotsAux cfg base i spacers ts).foldl (fun s e => f s e.1 e.2.1 e.2.2) s
  | [] => by intro base i depth spacers s; rfl
  | t :: rest => by
    intro base i depth spacers s
    rw [pfxWalk_cons, annotsAux_cons]
    simp only [List.foldl_cons, List.foldl_append]
    rw [pfxWalk_eq_foldl cfg f t.children, pfxWalk_eq_foldl cfg f rest]
  termination_by ts => sizeOf ts
  decreasing_by
    · have h := TreeNode.sizeOf_children_lt t
      simp only [List.cons.sizeOf_spec]; omega
    · simp only [List.cons.sizeOf_spec]; omega

theorem foldl_append_singleton (l : List α) :
    ∀ (acc : List α), l.foldl (fun s x => s ++ [x]) acc = acc ++ l := by
  induction l with
  | nil => intro acc; simp
  | cons a l ih => intro acc; simp [ih]

/-- The trace of `render` is exactly `annotsAux` from the root. -/
theorem render_eq_annots (cfg : PfxTokens) (t : TreeNode) :
    render cfg t = annotsAux cfg [] 0 [] t.children := by
  rw [render, pfxWalk_eq_foldl]
  exact foldl_append_singleton _ []

theorem foldl_string_join (g : α → String) (l : List α) :
    ∀ (s : String), l.foldl (fun s e => s ++ g e) s = s ++ String.join (l.map g) := by
  induction l with
  | nil =>
    intro s
    apply String.ext
    simp [String.data_append]
  | cons a l ih =>
    intro s
    simp only [List.foldl_cons, List.map_cons]
    rw [ih, String.join_cons, String.append_assoc]

/-- The export string before trimming: the effective root label followed by
one `"\n" ++ prefix ++ " " ++ label` block per processor call of the walk. -/
theorem treeToString_eq_join (cfg : PfxTokens) (rootPh : String) (t : TreeNode) :
    treeToString cfg rootPh t =
      jsTrim ((if t.label = "" then rootPh else t.label) ++
        String.join ((annotsAux cfg [] 0 [] t.children).map
          (fun e => "\n" ++ e.2.2 ++ " " ++ effLabel e.2.1))) := by
  rw [treeToString, pfxWalk_eq_foldl]
  congr 1
  rw [← foldl_string_join (fun e : List Nat × TreeNode × String =>
    "\n" ++ e.2.2 ++ " " ++ effLabel e.2.1) (annotsAux cfg [] 0 [] t.children)
    (if t.label = "" then rootPh else t.label)]
  congr 1
  funext s e
  simp [String.append_assoc]

theorem findAnnot_append (p : List Nat) (l1 l2 : List (List Nat × TreeNode × String)) :
    findAnnot p (l1 ++ l2) =
      (match findAnnot p l1 with
       | some e => some e
       | none => findAnnot p l2) := by
  induction l1 with
  | nil => simp [findAnnot]
  | cons e es ih =>
    simp only [List.cons_append, findAnnot]
    by_cases h : e.1 = p
    · simp [h]
    · simp [h, ih]

theorem findAnnot_eq_none (p : List Nat) (l : List (List Nat × TreeNode × String))
    (h : ∀ e ∈ l, e.1 ≠ p) : findAnnot p l = none := by
  induction l with
  | nil => rfl
  | cons e es ih =>
    simp only [findAnnot]
    rw [if_neg (h e (List.mem_cons_self e es))]
    exact ih fun e2 he2 => h e2 (List.mem_cons_of_mem e he2)

/-- Every entry of the trace lies strictly below `base`, with a first
index in `[i, i + length)`. -/
theorem annotsAux_paths (cfg : PfxTokens) :
    ∀ (ts : List TreeNode) (base : List Nat) (i : Nat) (spacers : List String)
      (e : List Nat × TreeNode × String), e ∈ annotsAux cfg base i spacers ts →
      ∃ m rest, e.1 = base ++ m :: rest ∧ i ≤ m ∧ m < i + ts.length
  | [] => by intro base i spacers e he; rw [annotsAux_nil] at he; cases he
  | t :: rest => by
    intro base i spacers e he
    rw [annotsAux_cons] at he
    rcases List.mem_cons.mp he with h | h
    · exact ⟨i, [], by rw [h], Nat.le_refl i, by simp⟩
    · rcases List.mem_append.mp h with h2 | h2
      · rcases annotsAux_paths cfg t.children (base ++ [i]) 0 _ e h2 with
          ⟨m, r, hr, _, _⟩
        exact ⟨i, m :: r, by rw [hr]; simp, Nat.le_refl i, by simp⟩
      · rcases annotsAux_paths cfg rest base (i + 1) spacers e h2 with
          ⟨m, r, hr, hm1, hm2⟩
        exact ⟨m, r, hr, by omega, by simp at hm2 ⊢; omega⟩
  termination_by ts => sizeOf ts
  decreasing_by
    · have h := TreeNode.sizeOf_children_lt t
      simp only [List.cons.sizeOf_spec]; omega
    · simp only [List.cons.sizeOf_spec]; omega

theorem pathPfx_cons_succ (cfg : PfxTokens) (sp : List String) (t : TreeNode)
    (rest : List TreeNode) (j : Nat) (is : List Nat) :
    pathPfx cfg sp (t :: rest) ((j + 1) :: is) = pathPfx cfg sp rest (j :: is) := by
  have h : (j + 1 + 1 = rest.length + 1) ↔ (j + 1 = rest.length) := by omega
  cases is with
  | nil =>
    simp only [pathPfx, List.get?_cons_succ, List.length_cons, h]
  | cons k is2 =>
    simp only [pathPfx, List.get?_cons_succ, List.length_cons, h]

/-- The central bridge: looking up a path in the trace of the walk gives
exactly the per-path recomputation `pathPfx`. -/
theorem findAnnot_annots (cfg : PfxTokens) :
    ∀ (ts : List TreeNode) (base : List Nat) (i j : Nat) (is : List Nat)
      (spacers : List String),
      findAnnot (base ++ (i + j) :: is) (annotsAux cfg base i spacers ts) =
        (pathPfx cfg spacers ts (j :: is)).map
          (fun pr => (base ++ (i + j) :: is, pr))
  | [] => by
    intro base i j is spacers
    rw [annotsAux_nil]
    cases is <;> simp [findAnnot, pathPfx]
  | t :: rest => by
    intro base i j is spacers
    have hEmpty : (rest.isEmpty = true) ↔ (0 + 1 = (t :: rest).length) := by
      rw [List.isEmpty_iff_length_eq_zero]
      simp only [List.length_cons]
      omega
    rw [annotsAux_cons, findAnnot]
    cases j with
    | zero =>
      cases is with
      | nil =>
        rw [if_pos (by simp)]
        cases rest with
        | nil => simp [pathPfx]
        | cons r rs => simp [pathPfx]
      | cons k is2 =>
        rw [if_neg (by
          intro heq
          have h2 := List.append_cancel_left heq
          simp at h2)]
        rw [findAnnot_append]
        have ih1 := findAnnot_annots cfg t.children (base ++ [i]) 0 k is2
          (spacers ++ [if rest.isEmpty then cfg.spacer_empty else cfg.spacer_branch])
        simp only [Nat.zero_add, List.append_assoc, List.singleton_append] at ih1
        simp only [Nat.add_zero] at ih1 ⊢
        rw [ih1]
        have hrhs : pathPfx cfg spacers (t :: rest) (0 :: k :: is2) =
            pathPfx cfg
              (spacers ++ [if rest.isEmpty then cfg.spacer_empty else cfg.spacer_branch])
              t.children (k :: is2) := by
          simp only [pathPfx, List.get?_cons_zero, Option.bind_some, hEmpty]
          rfl
        rw [hrhs]
        cases hpp : pathPfx cfg
            (spacers ++ [if rest.isEmpty then cfg.spacer_empty else cfg.spacer_branch])
            t.children (k :: is2) with
        | some pr => rfl
        | none =>
          simp only [Option.map_none']
          apply findAnnot_eq_none
          intro e he heq
          rcases annotsAux_paths cfg rest base (i + 1) spacers e he with
            ⟨m, r, hr, hm1, _⟩
          rw [hr] at heq
          have h2 := List.append_cancel_left heq
          simp at h2
          omega
    | succ j2 =>
      rw [if_neg (by
        intro heq
        have h2 := List.append_cancel_left heq
        simp at h2)]
      rw [findAnnot_append]
      have hnone : findAnnot (base ++ (i + (j2 + 1)) :: is)
          (annotsAux cfg (base ++ [i]) 0
            (spacers ++ [if rest.isEmpty then cfg.spacer_empty else cfg.spacer_branch])
            t.children) = none := by
        apply findAnnot_eq_none
        intro e he heq
        rcases annotsAux_paths cfg t.children (base ++ [i]) 0 _ e he with
          ⟨m, r, hr, _, _⟩
        rw [hr] at heq
        simp only [List.append_assoc, List.singleton_append] at heq
        have h2 := List.append_cancel_left heq
        simp at h2
      rw [hnone]
      have ih2 := findAnnot_annots cfg rest base (i + 1) j2 is spacers
      have harith : i + 1 + j2 = i + (j2 + 1) := by omega
      rw [harith] at ih2
      rw [ih2, pathPfx_cons_succ]
  termination_by ts => sizeOf ts
  decreasing_by
    · have h := TreeNode.sizeOf_children_lt t
      simp only [List.cons.sizeOf_spec]; omega
    · simp only [List.cons.sizeOf_spec]; omega

/-- The prefix the algorithm assigns to a path equals the per-path
recomputation. -/
theorem pfxAt_eq_pathPfx (cfg : PfxTokens) (t : TreeNode) (p : List Nat) :
    pfxAt cfg t p = (pathPfx cfg [] t.children p).map (fun pr => pr.2) := by
  cases p with
  | nil =>
    rw [pfxAt, render_eq_annots]
    rw [findAnnot_eq_none]
    · simp [pathPfx]
    · intro e he heq
      rcases annotsAux_paths cfg t.children [] 0 [] e he with ⟨m, r, hr, _, _⟩
      rw [heq] at hr
      exact List.noConfusion hr
  | cons j is =>
    rw [pfxAt, render_eq_annots]
    have h := findAnnot_annots cfg t.children [] 0 j is []
    simp only [Nat.zero_add, List.nil_append] at h
    rw [h]
    cases pathPfx cfg [] t.children (j :: is) <;> rfl

/-- Walk the proper ancestors along a path, collecting the spacer each
level contributes and returning the final sibling list. -/
def spineSpacers (cfg : PfxTokens) : List TreeNode → List Nat → Option (List String × List TreeNode)
  | ts, [] => some ([], ts)
  | ts, i :: is =>
    (ts.get? i).bind fun c =>
      (spineSpacers cfg c.children is).map fun pr =>
        ((if i + 1 = ts.length then cfg.spacer_empty else cfg.spacer_branch) :: pr.1, pr.2)

theorem pathPfx_cons_cons (cfg : PfxTokens) (sp : List String) (ts : List TreeNode)
    (i k : Nat) (is : List Nat) :
    pathPfx cfg sp ts (i :: k :: is) =
      (ts.get? i).bind fun c =>
        pathPfx cfg (sp ++ [if i + 1 = ts.length then cfg.spacer_empty else cfg.spacer_branch])
          c.children (k :: is) := by
  rw [pathPfx]
  intro h
  exact List.noConfusion h

theorem pathPfx_snoc (cfg : PfxTokens) :
    ∀ (qs : List Nat) (ts : List TreeNode) (sp : List String) (i : Nat),
      pathPfx cfg sp ts (qs ++ [i]) =
        (spineSpacers cfg ts qs).bind fun pr =>
          (pr.2.get? i).map fun c =>
            (c, String.join (sp ++ pr.1) ++
              (if i + 1 = pr.2.length then cfg.branch_last else cfg.branch)) := by
  intro qs
  induction qs with
  | nil =>
    intro ts sp i
    simp [pathPfx, spineSpacers]
  | cons q qs2 ih =>
    intro ts sp i
    have hsnoc : ∃ k l, qs2 ++ [i] = k :: l := by
      cases hq : qs2 ++ [i] with
      | nil => exact absurd hq (by simp)
      | cons k l => exact ⟨k, l, rfl⟩
    rcases hsnoc with ⟨k, l, hkl⟩
    show pathPfx cfg sp ts (q :: (qs2 ++ [i])) = _
    rw [hkl, pathPfx_cons_cons, ← hkl]
    rw [spineSpacers]
    cases hget : ts.get? q with
    | none => simp
    | some c =>
      simp only [Option.some_bind]
      rw [ih]
      cases hsp : spineSpacers cfg c.children qs2 with
      | none => simp
      | some pr =>
        simp only [Option.map_some', Option.some_bind, List.append_assoc,
          List.singleton_append]

/-- A valid lookup determines the spine: the spacer segments together with
the sibling list of the looked-up node's parent. -/
theorem get?_spine (cfg : PfxTokens) :
    ∀ (qs : List Nat) (t : TreeNode) (par : TreeNode), t.get? qs = some par →
      ∃ segs, spineSpacers cfg t.children qs = some (segs, par.children)
  | [], t, par => by
    intro h
    rw [TreeNode.get?] at h
    cases h
    exact ⟨[], rfl⟩
  | q :: qs2, t, par => by
    intro h
    rw [TreeNode.get?] at h
    cases hget : t.children.get? q with
    | none => rw [hget] at h; cases h
    | some c =>
      rw [hget] at h
      simp only [Option.some_bind] at h
      rcases get?_spine cfg qs2 c par h with ⟨segs, hs⟩
      exact ⟨(if q + 1 = t.children.length then cfg.spacer_empty else cfg.spacer_branch) :: segs,
        by rw [spineSpacers, hget]; simp [hs]⟩

theorem exists_cons_of_append_singleton (l : List α) (a : α) :
    ∃ k ks, l ++ [a] = k :: ks := by
  cases l with
  | nil => exact ⟨a, [], rfl⟩
  | cons x xs => exact ⟨x, xs ++ [a], rfl⟩

/-- The claim-side segment list coincides with the segments collected
along the spine (at the default tokens). -/
theorem ancestorSegs_spine :
    ∀ (qs : List Nat) (ts : List TreeNode) (i : Nat) (segs : List String)
      (sibs : List TreeNode),
      spineSpacers pfxTokens ts qs = some (segs, sibs) → i < sibs.length →
      ancestorSegsAux ts (qs ++ [i]) = some segs
  | [] => by
    intro ts i segs sibs hs hi
    rw [spineSpacers] at hs
    cases hs
    rw [List.nil_append, ancestorSegsAux]
    exact if_pos hi
  | q :: qs2 => by
    intro ts i segs sibs hs hi
    rw [spineSpacers] at hs
    cases hget : ts.get? q with
    | none => rw [hget] at hs; cases hs
    | some c =>
      rw [hget] at hs
      simp only [Option.some_bind] at hs
      cases hsp : spineSpacers pfxTokens c.children qs2 with
      | none => rw [hsp] at hs; cases hs
      | some pr =>
        obtain ⟨prSegs, prSibs⟩ := pr
        rw [hsp] at hs
        simp only [Option.map_some', Option.some.injEq, Prod.mk.injEq] at hs
        rcases exists_cons_of_append_singleton qs2 i with ⟨k, ks, hkl⟩
        show ancestorSegsAux ts (q :: (qs2 ++ [i])) = _
        rw [hkl, ancestorSegsAux, ← hkl, hget]
        · simp only [Option.some_bind]
          rw [ancestorSegs_spine qs2 c.children i prSegs prSibs hsp
            (by rw [← hs.2] at hi; exact hi)]
          simp only [Option.map_some']
          rw [← hs.1]
          rfl
        · intro h
          exact List.noConfusion h

/-- C1: for every node below the root, the connector token the prefix
algorithm computes is `branch_last` exactly when the node is the last
element of its parent's child sequence, and `branch` otherwise; at the
default tokens these are `\--` and `|--`. -/
theorem connector_iff_last (t : TreeNode) (qs : List Nat) (i : Nat) (par : TreeNode)
    (hpar : t.get? qs = some par) (hi : i < par.children.length) :
    ∃ s, pfxAt pfxTokens t (qs ++ [i]) =
      some (s ++ (if i + 1 = par.children.length then "\\--" else "|--")) := by
  rw [pfxAt_eq_pathPfx, pathPfx_snoc]
  rcases get?_spine pfxTokens qs t par hpar with ⟨segs, hs⟩
  rw [hs]
  have hc : ∃ c, par.children.get? i = some c := by
    cases hg : par.children.get? i with
    | none => rw [List.get?_eq_none] at hg; omega
    | some c => exact ⟨c, rfl⟩
  rcases hc with ⟨c, hc⟩
  refine ⟨String.join segs, ?_⟩
  simp only [Option.some_bind, hc, Option.map_some', List.nil_append]
  by_cases h : i + 1 = par.children.length
  · rw [if_pos h, if_pos h]; rfl
  · rw [if_neg h, if_neg h]; rfl

/-- The running example of spec section 8: `project` with children `src`
(containing `index.js`) and `README.md`. -/
def sampleTree : TreeNode :=
  TreeNode.node "project"
    [TreeNode.node "src" [TreeNode.node "index.js" []],
     TreeNode.node "README.md" []]

/-- Witness for C1 at a concrete input. -/
theorem connector_iff_last_witness :
    ∃ s, pfxAt pfxTokens sampleTree ([] ++ [1]) =
      some (s ++ (if 1 + 1 = sampleTree.children.length then "\\--" else "|--")) :=
  connector_iff_last sampleTree [] 1 sampleTree rfl (by decide)

/-- C2: the full prefix of every node below the root is the ordered
concatenation of one spacer segment per proper ancestor below the root
(root-most first; four spaces if that ancestor was last among its own
siblings, pipe plus three spaces otherwise) followed by the node's own
connector. -/
theorem full_prefix_concat (t : TreeNode) (qs : List Nat) (i : Nat) (par : TreeNode)
    (hpar : t.get? qs = some par) (hi : i < par.children.length) :
    ∃ segs, ancestorSegs t (qs ++ [i]) = some segs ∧
      pfxAt pfxTokens t (qs ++ [i]) =
        some (String.join segs ++
          (if i + 1 = par.children.length then "\\--" else "|--")) := by
  rcases get?_spine pfxTokens qs t par hpar with ⟨segs, hs⟩
  refine ⟨segs, ancestorSegs_spine qs t.children i segs par.children hs hi, ?_⟩
  rw [pfxAt_eq_pathPfx, pathPfx_snoc, hs]
  have hc : ∃ c, par.children.get? i = some c := by
    cases hg : par.children.get? i with
    | none => rw [List.get?_eq_none] at hg; omega
    | some c => exact ⟨c, rfl⟩
  rcases hc with ⟨c, hc⟩
  simp only [Option.some_bind, hc, Option.map_some', List.nil_append]
  by_cases h : i + 1 = par.children.length
  · rw [if_pos h, if_pos h]; rfl
  · rw [if_neg h, if_neg h]; rfl

/-- Witness for C2 at a concrete input: `index.js` at path `[0, 0]`. -/
theorem full_prefix_concat_witness :
    ∃ segs, ancestorSegs sampleTree ([0] ++ [0]) = some segs ∧
      pfxAt pfxTokens sampleTree ([0] ++ [0]) =
        some (String.join segs ++
          (if 0 + 1 = (TreeNode.node "src" [TreeNode.node "index.js" []]).children.length
           then "\\--" else "|--")) :=
  full_prefix_concat sampleTree [0] 0
    (TreeNode.node "src" [TreeNode.node "index.js" []]) rfl (by decide)

/-- C6: recomputing the prefixes twice on an unmodified tree, with the
token configuration unchanged between runs, yields the identical
editor state — in particular identical prefix strings for every node.
`render` reads only the tree, which it never modifies. -/
theorem computePrefixes_idempotent (cfg : PfxTokens) (st : EditorState) :
    renderState cfg (renderState cfg st) = renderState cfg st := rfl

/-- C7: deleting the `src` subtree from the section-8 example tree and
exporting yields exactly `project\n\-- README.md`, whatever the root
placeholder is. -/
theorem delete_src_export (rootPh : String) :
    (deleteBranchModel sampleTree [0]).map (treeToString pfxTokens rootPh) =
      some "project\n\\-- README.md" := rfl

/-- C9: `clear()` removes all of the root's children while the root node
itself survives with its label unchanged. -/
theorem clear_spec (t : TreeNode) :
    (clearModel t).children = [] ∧ (clearModel t).label = t.label := by
  constructor
  · show clearLoop t.children = []
    induction t.children with
    | nil => rfl
    | cons a l ih => rw [clearLoop]; exact ih
  · rfl

theorem TreeNode.size_pos (t : TreeNode) : 0 < t.size := by
  cases t with
  | node l cs => rw [TreeNode.size]; omega

theorem sizeList_eraseIdx :
    ∀ (cs : List TreeNode) (i : Nat), i < cs.length →
      TreeNode.size.sizeList (cs.eraseIdx i) < TreeNode.size.sizeList cs
  | [], i => by intro h; cases h
  | c :: rest, 0 => by
    intro _
    show TreeNode.size.sizeList rest < TreeNode.size.sizeList (c :: rest)
    rw [TreeNode.size.sizeList]
    have h := TreeNode.size_pos c
    omega
  | c :: rest, i + 1 => by
    intro h
    show TreeNode.size.sizeList (c :: rest.eraseIdx i) < TreeNode.size.sizeList (c :: rest)
    rw [TreeNode.size.sizeList, TreeNode.size.sizeList]
    have h2 := sizeList_eraseIdx rest i (by simp at h; omega)
    omega

theorem sizeList_set :
    ∀ (cs : List TreeNode) (i : Nat) (c c2 : TreeNode), cs.get? i = some c →
      TreeNode.size.sizeList (cs.set i c2) + c.size =
        TreeNode.size.sizeList cs + c2.size
  | [], i, c, c2 => by intro h; cases h
  | x :: rest, 0, c, c2 => by
    intro h
    rw [List.get?_cons_zero, Option.some.injEq] at h
    show TreeNode.size.sizeList (c2 :: rest) + c.size =
      TreeNode.size.sizeList (x :: rest) + c2.size
    rw [TreeNode.size.sizeList, TreeNode.size.sizeList, h]
    omega
  | x :: rest, i + 1, c, c2 => by
    intro h
    rw [List.get?_cons_succ] at h
    show TreeNode.size.sizeList (x :: rest.set i c2) + c.size =
      TreeNode.size.sizeList (x :: rest) + c2.size
    rw [TreeNode.size.sizeList, TreeNode.size.sizeList]
    have h2 := sizeList_set rest i c c2 h
    omega

theorem removeAt_cons_cons (t : TreeNode) (i k : Nat) (is : List Nat) :
    t.removeAt (i :: k :: is) =
      (t.children.get? i).bind fun c =>
        (c.removeAt (k :: is)).map fun c2 =>
          TreeNode.node t.label (t.children.set i c2) := by
  rw [TreeNode.removeAt]
  intro h
  exact List.noConfusion h

theorem removeAt_size_lt :
    ∀ (src : List Nat) (t t1 : TreeNode), t.removeAt src = some t1 →
      t1.size < t.size
  | [], t, t1 => by intro h; rw [TreeNode.removeAt] at h; cases h
  | [i], t, t1 => by
    intro h
    rw [TreeNode.removeAt] at h
    by_cases hi : i < t.children.length
    · rw [if_pos hi, Option.some.injEq] at h
      subst h
      cases t with
      | node l cs =>
        rw [TreeNode.size, TreeNode.size]
        have h2 := sizeList_eraseIdx cs i (by simpa using hi)
        simp only [TreeNode.children_node] at h2 ⊢
        omega
    · rw [if_neg hi] at h; cases h
  | i :: k :: is, t, t1 => by
    intro h
    rw [removeAt_cons_cons] at h
    cases hget : t.children.get? i with
    | none => rw [hget] at h; cases h
    | some c =>
      rw [hget] at h
      simp only [Option.some_bind] at h
      cases hrem : c.removeAt (k :: is) with
      | none => rw [hrem] at h; cases h
      | some c2 =>
        rw [hrem] at h
        simp only [Option.map_some', Option.some.injEq] at h
        subst h
        have hlt := removeAt_size_lt (k :: is) c c2 hrem
        have hset := sizeList_set t.children i c c2 hget
        cases t with
        | node l cs =>
          rw [TreeNode.size, TreeNode.size]
          simp only [TreeNode.children_node] at hset ⊢
          omega

theorem removeAt_isSome :
    ∀ (src : List Nat) (t sub : TreeNode), src ≠ [] → t.get? src = some sub →
      ∃ t1, t.removeAt src = some t1
  | [], t, sub => by intro h0 _; exact absurd rfl h0
  | [i], t, sub => by
    intro _ h1
    rw [TreeNode.get?] at h1
    cases hget : t.children.get? i with
    | none => rw [hget] at h1; cases h1
    | some c =>
      have hi : i < t.children.length := by
        by_contra hn
        rw [List.get?_eq_none.mpr (by omega)] at hget
        cases hget
      exact ⟨TreeNode.node t.label (t.children.eraseIdx i),
        by rw [TreeNode.removeAt, if_pos hi]⟩
  | i :: k :: is, t, sub => by
    intro _ h1
    rw [TreeNode.get?] at h1
    cases hget : t.children.get? i with
    | none => rw [hget] at h1; cases h1
    | some c =>
      rw [hget] at h1
      simp only [Option.some_bind] at h1
      rcases removeAt_isSome (k :: is) c sub (by simp) h1 with ⟨c2, hc2⟩
      exact ⟨TreeNode.node t.label (t.children.set i c2),
        by rw [removeAt_cons_cons, hget]; simp [hc2]⟩

/-- Counterexample input for C3: a root with child `a` which has child `b`. -/
def moveCexTree : TreeNode :=
  TreeNode.node "root" [TreeNode.node "a" [TreeNode.node "b" []]]

/-- C3 as stated is false on the code: invoking the move operation with
destination `[0, 0]` (a descendant of the moved node `[0]`) does NOT
leave the tree unchanged — the detach has already happened when the
re-attach throws, so the subtree is lost. -/
theorem move_into_descendant_cex :
    (moveBranchModel moveCexTree [0] [0, 0]).2 ≠ moveCexTree := by
  intro h
  have h2 : TreeNode.node "root" [] =
      TreeNode.node "root" [TreeNode.node "a" [TreeNode.node "b" []]] := h
  have h3 := congrArg TreeNode.children h2
  exact List.noConfusion h3

/-- C3 (amended): when the destination is the moved node itself or one of
its descendants, `_moveBranch` fails at the re-attach step and leaves the
tree equal to the original with the moved subtree detached — a tree that
is still a tree (acyclic by construction) but is NOT the unchanged
original.  (Through the UI this invocation is prevented up front:
`moveBranch` removes the interaction listeners of the moving branch, so no
destination inside it can be selected.) -/
theorem move_into_descendant_detaches (t sub : TreeNode) (src dest : List Nat)
    (h0 : src ≠ []) (h1 : t.get? src = some sub) (h2 : src <+: dest) :
    ∃ t1, t.removeAt src = some t1 ∧
      moveBranchModel t src dest = (false, t1) ∧ t1 ≠ t := by
  rcases removeAt_isSome src t sub h0 h1 with ⟨t1, hr⟩
  refine ⟨t1, hr, ?_, ?_⟩
  · have hb : src.isPrefixOf dest = true := List.isPrefixOf_iff_prefix.mpr h2
    simp only [moveBranchModel, h1, hr, hb, if_true]
  · intro he
    have := removeAt_size_lt src t t1 hr
    rw [he] at this
    omega

/-- Witness for the amended C3 at a concrete input. -/
theorem move_into_descendant_detaches_witness :
    ∃ t1, moveCexTree.removeAt [0] = some t1 ∧
      moveBranchModel moveCexTree [0] [0, 0] = (false, t1) ∧ t1 ≠ moveCexTree :=
  move_into_descendant_detaches moveCexTree
    (TreeNode.node "a" [TreeNode.node "b" []]) [0] [0, 0]
    (by simp) rfl ⟨[0], rfl⟩

theorem sigString_cons_cons (cfg : PfxTokens) (b b2 : Bool) (rest : List Bool) :
    sigString cfg (b :: b2 :: rest) =
      (if b then cfg.spacer_empty else cfg.spacer_branch) ++ sigString cfg (b2 :: rest) :=
  rfl

/-- If the chain of `isLast` flags along a path exists, the per-path
prefix is determined by it alone. -/
theorem pathPfx_of_sig (cfg : PfxTokens) :
    ∀ (is : List Nat) (i : Nat) (ts : List TreeNode) (sp : List String)
      (sig : List Bool), chainSig ts (i :: is) = some sig →
      (pathPfx cfg sp ts (i :: is)).map (fun pr => pr.2) =
        some (String.join sp ++ sigString cfg sig)
  | [] => by
    intro i ts sp sig hsig
    rw [chainSig] at hsig
    cases hget : ts.get? i with
    | none => rw [hget] at hsig; cases hsig
    | some c =>
      rw [hget] at hsig
      simp only [Option.some_bind, chainSig, Option.map_some', Option.some.injEq] at hsig
      rw [pathPfx, hget]
      simp only [Option.map_some']
      rw [← hsig]
      rw [sigString]
      by_cases h : i + 1 = ts.length
      · rw [if_pos h, if_pos (by simp [h])]
      · rw [if_neg h, if_neg (by simp [h])]
  | k :: is2 => by
    intro i ts sp sig hsig
    rw [chainSig] at hsig
    cases hget : ts.get? i with
    | none => rw [hget] at hsig; cases hsig
    | some c =>
      rw [hget] at hsig
      simp only [Option.some_bind] at hsig
      cases hinner : chainSig c.children (k :: is2) with
      | none => rw [hinner] at hsig; cases hsig
      | some inner =>
        rw [hinner] at hsig
        simp only [Option.map_some', Option.some.injEq] at hsig
        have hshape : ∃ b2 irest, inner = b2 :: irest := by
          rw [chainSig] at hinner
          cases hg2 : c.children.get? k with
          | none => rw [hg2] at hinner; cases hinner
          | some c2 =>
            rw [hg2] at hinner
            simp only [Option.some_bind] at hinner
            cases hg3 : chainSig c2.children is2 with
            | none => rw [hg3] at hinner; cases hinner
            | some l3 =>
              rw [hg3] at hinner
              simp only [Option.map_some', Option.some.injEq] at hinner
              exact ⟨_, _, hinner.symm⟩
        rcases hshape with ⟨b2, irest, hb⟩
        rw [pathPfx_cons_cons, hget]
        simp only [Option.some_bind]
        rw [pathPfx_of_sig cfg is2 k c.children _ inner hinner, ← hsig, hb,
          sigString_cons_cons, String.join_append_single, String.append_assoc]
        simp only [decide_eq_true_eq]

/-- If the chain of flags along a path does not exist (the path is not
valid), neither does the per-path prefix. -/
theorem pathPfx_none_of_sig (cfg : PfxTokens) :
    ∀ (is : List Nat) (i : Nat) (ts : List TreeNode) (sp : List String),
      chainSig ts (i :: is) = none → pathPfx cfg sp ts (i :: is) = none
  | [] => by
    intro i ts sp hsig
    rw [chainSig] at hsig
    cases hget : ts.get? i with
    | none => rw [pathPfx, hget]; rfl
    | some c =>
      rw [hget] at hsig
      simp only [Option.some_bind, chainSig, Option.map_some'] at hsig
      cases hsig
  | k :: is2 => by
    intro i ts sp hsig
    rw [chainSig] at hsig
    cases hget : ts.get? i with
    | none => rw [pathPfx_cons_cons, hget]; rfl
    | some c =>
      rw [hget] at hsig
      simp only [Option.some_bind] at hsig
      rw [pathPfx_cons_cons, hget]
      simp only [Option.some_bind]
      apply pathPfx_none_of_sig cfg is2 k c.children
      cases hinner : chainSig c.children (k :: is2) with
      | none => rfl
      | some inner => rw [hinner] at hsig; simp at hsig

/-- C10: the prefix walk never mutates the tree — in annotate mode the
state transformer leaves the tree component of the editor state exactly
as it was (export mode only folds up a string, so there is nothing it
could mutate) — and, because each recursion works on a copy of the spacer
list, the prefix computed for a path depends only on that path's own
chain of ancestors (the `isLast` flag at each level), never on previously
visited sibling subtrees. -/
theorem walk_pure_and_ancestor_only (cfg : PfxTokens) (st : EditorState)
    (t1 t2 : TreeNode) (p : List Nat)
    (hsig : chainSig t1.children p = chainSig t2.children p) :
    (renderState cfg st).tree = st.tree ∧ pfxAt cfg t1 p = pfxAt cfg t2 p := by
  refine ⟨rfl, ?_⟩
  rw [pfxAt_eq_pathPfx, pfxAt_eq_pathPfx]
  cases p with
  | nil => rfl
  | cons i is =>
    cases hc : chainSig t1.children (i :: is) with
    | none =>
      rw [pathPfx_none_of_sig cfg is i t1.children [] hc,
        pathPfx_none_of_sig cfg is i t2.children [] (by rw [← hsig]; exact hc)]
    | some sig =>
      rw [pathPfx_of_sig cfg is i t1.children [] sig hc,
        pathPfx_of_sig cfg is i t2.children [] sig (by rw [← hsig]; exact hc)]

/-- Witness for C10: two trees with different labels and different
sibling subtrees but the same ancestor chain at path `[1]` get the same
prefix there. -/
theorem walk_pure_and_ancestor_only_witness :
    (renderState pfxTokens ⟨sampleTree, []⟩).tree = (⟨sampleTree, []⟩ : EditorState).tree ∧
      pfxAt pfxTokens sampleTree [1] =
        pfxAt pfxTokens (TreeNode.node "x" [TreeNode.node "y" [TreeNode.node "z" []],
          TreeNode.node "w" []]) [1] :=
  walk_pure_and_ancestor_only pfxTokens ⟨sampleTree, []⟩ sampleTree
    (TreeNode.node "x" [TreeNode.node "y" [TreeNode.node "z" []], TreeNode.node "w" []])
    [1] (by decide)

theorem TreeNode.get?_append (t : TreeNode) :
    ∀ (a b : List Nat), t.get? (a ++ b) = (t.get? a).bind fun c => c.get? b := by
  intro a
  induction a generalizing t with
  | nil => intro b; simp [TreeNode.get?]
  | cons q qs ih =>
    intro b
    show t.get? (q :: (qs ++ b)) = _
    rw [TreeNode.get?, TreeNode.get?]
    cases hget : t.children.get? q with
    | none => rfl
    | some c => simp only [Option.some_bind]; exact ih c b

/-- What `modifyAt` does: the node at the path is replaced by `f` of it;
paths diverging from the path are untouched; proper ancestors keep their
label and their child count. -/
theorem modifyAt_spec (f : TreeNode → TreeNode) :
    ∀ (qs : List Nat) (t par : TreeNode), t.get? qs = some par →
      ∃ t', t.modifyAt qs f = some t' ∧
        t'.get? qs = some (f par) ∧
        (∀ p, ¬ (qs <+: p) → ¬ (p <+: qs) → t'.get? p = t.get? p) ∧
        (∀ p n2, p <+: qs → p ≠ qs → t.get? p = some n2 →
          ∃ m, t'.get? p = some m ∧ m.label = n2.label ∧
            m.children.length = n2.children.length)
  | [], t, par => by
    intro h
    rw [TreeNode.get?, Option.some.injEq] at h
    subst h
    refine ⟨f t, rfl, rfl, ?_, ?_⟩
    · intro p hp1 _
      exact absurd List.nil_prefix hp1
    · intro p n2 hp hne _
      rw [List.prefix_nil.mp hp] at hne
      exact absurd rfl hne
  | q :: qs2, t, par => by
    intro h
    rw [TreeNode.get?] at h
    cases hget : t.children.get? q with
    | none => rw [hget] at h; cases h
    | some c =>
      rw [hget] at h
      simp only [Option.some_bind] at h
      rcases modifyAt_spec f qs2 c par h with ⟨c', hmod, hat, hdiv, hanc⟩
      have hq : q < t.children.length := by
        by_contra hn
        rw [List.get?_eq_none.mpr (by omega)] at hget
        cases hget
      refine ⟨TreeNode.node t.label (t.children.set q c'), ?_, ?_, ?_, ?_⟩
      · rw [TreeNode.modifyAt, hget]
        simp [hmod]
      · rw [TreeNode.get?]
        simp only [TreeNode.children_node]
        rw [List.get?_set_eq, hget]
        simp only [Option.map_eq_map, Option.map_some', Option.some_bind]
        exact hat
      · intro p hp1 hp2
        cases p with
        | nil => exact absurd List.nil_prefix hp2
        | cons j ps =>
          rw [TreeNode.get?, TreeNode.get?]
          simp only [TreeNode.children_node]
          by_cases hj : j = q
          · subst hj
            rw [List.get?_set_eq, hget]
            simp only [Option.map_eq_map, Option.map_some', Option.some_bind]
            apply hdiv
            · intro hpre
              exact hp1 (List.cons_prefix_cons.mpr ⟨rfl, hpre⟩)
            · intro hpre
              exact hp2 (List.cons_prefix_cons.mpr ⟨rfl, hpre⟩)
          · rw [List.get?_set_ne _ _ (fun hh => hj hh.symm)]
      · intro p n2 hp hne hn2
        cases p with
        | nil =>
          rw [TreeNode.get?, Option.some.injEq] at hn2
          refine ⟨TreeNode.node t.label (t.children.set q c'), rfl, ?_, ?_⟩
          · rw [← hn2]; rfl
          · rw [← hn2]
            simp [List.length_set]
        | cons j ps =>
          rcases List.cons_prefix_cons.mp hp with ⟨hjq, hps⟩
          subst hjq
          have hpsne : ps ≠ qs2 := fun hh => hne (by rw [hh])
          rw [TreeNode.get?] at hn2
          rw [hget] at hn2
          simp only [Option.some_bind] at hn2
          rcases hanc ps n2 hps hpsne hn2 with ⟨m, hm1, hm2, hm3⟩
          refine ⟨m, ?_, hm2, hm3⟩
          rw [TreeNode.get?]
          simp only [TreeNode.children_node]
          rw [List.get?_set_eq, hget]
          simp only [Option.map_eq_map, Option.map_some', Option.some_bind]
          exact hm1

/-- C8: `addSibling` fails/no-ops on the root (which has no parent inside
the tree; the UI hides the affordance there); for every non-root node it
creates a fresh empty-labeled node and appends it as the last child of
the node's parent, leaving every existing node — its label, its child
count, the order of all existing children, and all untouched subtrees —
unchanged. -/
theorem addSibling_spec (t : TreeNode) (qs : List Nat) (i : Nat) (n : TreeNode)
    (h : t.get? (qs ++ [i]) = some n) :
    addSiblingModel t [] = none ∧
    ∃ t' par, t.get? qs = some par ∧
      addSiblingModel t (qs ++ [i]) = some t' ∧
      t'.get? qs = some (TreeNode.node par.label (par.children ++ [emptyBranch])) ∧
      (∀ p, ¬ (qs <+: p) → ¬ (p <+: qs) → t'.get? p = t.get? p) ∧
      (∀ j js, j < par.children.length →
        t'.get? (qs ++ j :: js) = t.get? (qs ++ j :: js)) ∧
      (∀ p n2, p <+: qs → p ≠ qs → t.get? p = some n2 →
        ∃ m, t'.get? p = some m ∧ m.label = n2.label ∧
          m.children.length = n2.children.length) := by
  refine ⟨rfl, ?_⟩
  have hpar : ∃ par, t.get? qs = some par := by
    rw [TreeNode.get?_append] at h
    cases hg : t.get? qs with
    | none => rw [hg] at h; cases h
    | some par => exact ⟨par, rfl⟩
  rcases hpar with ⟨par, hpar⟩
  rcases modifyAt_spec
      (fun nd => TreeNode.node nd.label (nd.children ++ [emptyBranch])) qs t par hpar
    with ⟨t', hmod, hat, hdiv, hanc⟩
  have hadd : addSiblingModel t (qs ++ [i]) = some t' := by
    rcases exists_cons_of_append_singleton qs i with ⟨k, ks, hkl⟩
    rw [hkl]
    show t.modifyAt (k :: ks).dropLast
      (fun nd => TreeNode.node nd.label (nd.children ++ [emptyBranch])) = some t'
    rw [← hkl, List.dropLast_concat]
    exact hmod
  refine ⟨t', par, hpar, hadd, hat, hdiv, ?_, hanc⟩
  intro j js hj
  rw [TreeNode.get?_append, TreeNode.get?_append, hat, hpar]
  simp only [Option.some_bind]
  rw [TreeNode.get?, TreeNode.get?]
  simp only [TreeNode.children_node]
  rw [List.get?_append hj]

/-- Witness for C8 at a concrete input: a sibling for `index.js`. -/
theorem addSibling_spec_witness :
    addSiblingModel sampleTree [] = none ∧
    ∃ t' par, sampleTree.get? [0] = some par ∧
      addSiblingModel sampleTree ([0] ++ [0]) = some t' ∧
      t'.get? [0] = some (TreeNode.node par.label (par.children ++ [emptyBranch])) ∧
      (∀ p, ¬ ([0] <+: p) → ¬ (p <+: [0]) → t'.get? p = sampleTree.get? p) ∧
      (∀ j js, j < par.children.length →
        t'.get? ([0] ++ j :: js) = sampleTree.get? ([0] ++ j :: js)) ∧
      (∀ p n2, p <+: [0] → p ≠ [0] → sampleTree.get? p = some n2 →
        ∃ m, t'.get? p = some m ∧ m.label = n2.label ∧
          m.children.length = n2.children.length) :=
  addSibling_spec sampleTree [0] 0 (TreeNode.node "index.js" []) rfl

theorem dropWhile_head_not (p : α → Bool) :
    ∀ (l : List α) (c : α), (l.dropWhile p).head? = some c → p c = false := by
  intro l
  induction l with
  | nil => intro c h; cases h
  | cons a l ih =>
    intro c h
    rw [List.dropWhile_cons] at h
    by_cases hp : p a = true
    · rw [if_pos hp] at h
      exact ih c h
    · rw [if_neg hp, List.head?_cons, Option.some.injEq] at h
      rw [← h]
      exact Bool.not_eq_true _ |>.mp hp

/-- The last character of a trimmed string is never whitespace. -/
theorem jsTrim_no_trailing_ws (s : String) (c : Char)
    (h : (jsTrim s).data.getLast? = some c) : isWsChar c = false := by
  have h2 : jsTrimData s.data = (jsTrim s).data := rfl
  rw [← h2, jsTrimData, List.getLast?_reverse] at h
  exact dropWhile_head_not isWsChar _ c h

/-- C4: the export string is the JS-trim of: first line the root's label
(or the root's placeholder when that label is empty), followed by one
line `"\n" ++ prefix ++ " " ++ label-or-placeholder` for each non-root
node in depth-first pre-order (the entries of `render`, in visit order,
with the non-root placeholder substituted for empty labels); and the
final string carries no trailing whitespace. -/
theorem export_format (cfg : PfxTokens) (rootPh : String) (t : TreeNode) :
    treeToString cfg rootPh t =
      jsTrim ((if t.label = "" then rootPh else t.label) ++
        String.join ((render cfg t).map
          (fun e => "\n" ++ e.2.2 ++ " " ++ effLabel e.2.1))) ∧
    ((treeToString cfg rootPh t).data.getLast?.all fun c => ! isWsChar c) = true := by
  constructor
  · rw [treeToString_eq_join, render_eq_annots]
  · cases hl : (treeToString cfg rootPh t).data.getLast? with
    | none => rfl
    | some c =>
      have hw := jsTrim_no_trailing_ws
        (pfxWalk cfg (fun s _path item pre => s ++ "\n" ++ pre ++ " " ++ effLabel item)
          [] 0 0 [] (if t.label = "" then rootPh else t.label) t.children) c hl
      simp [Option.all, hw]

/-- The pure shape of a tree: parent/child relationships and left-to-right
sibling order, with labels erased. -/
inductive Shape : Type where
  | node (children : List Shape) : Shape

mutual

/-- The shape of a tree. -/
def TreeNode.shape : TreeNode → Shape
  | .node _ cs => Shape.node (shapeList cs)

/-- The shapes of a child list, in order. -/
def shapeList : List TreeNode → List Shape
  | [] => []
  | t :: ts => TreeNode.shape t :: shapeList ts

end

mutual

/-- No label in the tree contains a newline.  This always holds for the
editor's trees: the labels are values of `<input type="text">` elements,
whose value sanitization strips line breaks. -/
def TreeNode.noNL : TreeNode → Bool
  | .node l cs => l.data.all (fun c => ! (c == '\n')) && noNLList cs

def noNLList : List TreeNode → Bool
  | [] => true
  | t :: ts => TreeNode.noNL t && noNLList ts

end

/-- Drop trailing whitespace. -/
def dropEndWs (cs : List Char) : List Char :=
  (cs.reverse.dropWhile isWsChar).reverse

/-- Apply `f` to the last element of a list, if any. -/
def modifyLast (f : α → α) : List α → List α
  | [] => []
  | [a] => [f a]
  | a :: rest => a :: modifyLast f rest

/-- Split a character list at newlines (the line structure of the export;
`"".splitOn` semantics: the empty text is one empty line). -/
def splitLinesData : List Char → List (List Char)
  | [] => [[]]
  | c :: cs =>
    if c = '\n' then [] :: splitLinesData cs
    else
      match splitLinesData cs with
      | [] => [[c]]
      | l :: ls => (c :: l) :: ls

/-- Stated from the claim (C5), which asks that the export be re-parsed
"by its indentation and connector pattern": greedily strip leading
four-character spacer groups (`"|   "` or four spaces), counting them. -/
def stripSpacers : List Char → Nat × List Char
  | '|' :: ' ' :: ' ' :: ' ' :: rest =>
    ((stripSpacers rest).1 + 1, (stripSpacers rest).2)
  | ' ' :: ' ' :: ' ' :: ' ' :: rest =>
    ((stripSpacers rest).1 + 1, (stripSpacers rest).2)
  | cs => (0, cs)

/-- Drop the single space that separates the connector from the label,
when present (it may have been trimmed away on the final line). -/
def dropOneSpace : List Char → List Char
  | ' ' :: r => r
  | r => r

/-- Expect a connector token (`|--` or `\--`), then the label after an
optional separating space. -/
def parseConnChars : List Char → Option (List Char)
  | '|' :: '-' :: '-' :: rest => some (dropOneSpace rest)
  | '\\' :: '-' :: '-' :: rest => some (dropOneSpace rest)
  | _ => none

/-- Parse one non-root line of the export into its depth (number of
spacer segments) and its label text. -/
def parseLineChars (cs : List Char) : Option (Nat × List Char) :=
  (parseConnChars (stripSpacers cs).2).map fun lbl => ((stripSpacers cs).1, lbl)

/-- Parse every line, failing if any line fails. -/
def parseLinesAux : List (List Char) → Option (List (Nat × List Char))
  | [] => some []
  | l :: ls =>
    match parseLineChars l, parseLinesAux ls with
    | some e, some es => some (e :: es)
    | _, _ => none

/-- Rebuild a forest from the depth-annotated pre-order line entries: an
entry at the expected depth `d` becomes a node whose children are rebuilt
from the following entries at depth `d + 1`, followed by its later
siblings at depth `d`; an entry at any other depth ends the current
level.  `fuel` bounds the recursion (callers pass the entry count). -/
def buildForest (fuel : Nat) (d : Nat) (xs : List (Nat × List Char)) :
    List TreeNode × List (Nat × List Char) :=
  match fuel with
  | 0 => ([], xs)
  | fuel + 1 =>
    match xs with
    | [] => ([], [])
    | (dep, lbl) :: rest =>
      if dep = d then
        let pr1 := buildForest fuel (d + 1) rest
        let pr2 := buildForest fuel d pr1.2
        (TreeNode.node ⟨lbl⟩ pr1.1 :: pr2.1, pr2.2)
      else ([], (dep, lbl) :: rest)

/-- Stated from the claim (C5): re-parse an export string by its
indentation/connector pattern.  The first line is the root's label; each
further line is parsed into (depth, label) and the forest is rebuilt from
the depth sequence; parsing fails if a line does not match the pattern or
entries are left over. -/
def parseTree (s : String) : Option TreeNode :=
  match splitLinesData s.data with
  | [] => none
  | rootLine :: other =>
    (parseLinesAux other).bind fun es =>
      match buildForest es.length 0 es with
      | (forest, leftover) =>
        if leftover.isEmpty then some (TreeNode.node ⟨rootLine⟩ forest) else none

/-- The expected depth sequence of the pre-order lines of a forest whose
top level sits at depth `d`. -/
def forestDepths (d : Nat) : List TreeNode → List Nat
  | [] => []
  | t :: rest => d :: (forestDepths (d + 1) t.children ++ forestDepths d rest)
  termination_by ts => sizeOf ts
  decreasing_by
    · have h := TreeNode.sizeOf_children_lt t
      simp only [List.cons.sizeOf_spec]; omega
    · simp only [List.cons.sizeOf_spec]; omega

theorem dropWhile_append_of_any (p : α → Bool) (a b : List α)
    (h : ∃ c ∈ a, p c = false) :
    List.dropWhile p (a ++ b) = List.dropWhile p a ++ b := by
  rw [List.dropWhile_append, if_neg]
  rw [List.isEmpty_iff]
  intro hnil
  rw [List.dropWhile_eq_nil_iff] at hnil
  rcases h with ⟨c, hc, hcp⟩
  rw [hnil c hc] at hcp
  cases hcp

theorem dropEndWs_append_of_any (a b : List Char)
    (h : ∃ c ∈ b, isWsChar c = false) :
    dropEndWs (a ++ b) = a ++ dropEndWs b := by
  rw [dropEndWs, dropEndWs, List.reverse_append]
  rw [dropWhile_append_of_any isWsChar b.reverse a.reverse
    (by rcases h with ⟨c, hc, hcp⟩; exact ⟨c, List.mem_reverse.mpr hc, hcp⟩)]
  rw [List.reverse_append, List.reverse_reverse]

theorem mem_of_mem_dropEndWs (c : Char) (l : List Char)
    (h : c ∈ dropEndWs l) : c ∈ l := by
  rw [dropEndWs, List.mem_reverse] at h
  exact List.mem_reverse.mp ((List.dropWhile_sublist isWsChar).mem h)

theorem mem_of_mem_dropWhile (p : α → Bool) (c : α) (l : List α)
    (h : c ∈ l.dropWhile p) : c ∈ l :=
  (List.dropWhile_sublist p).mem h

theorem stripSpacers_seg (seg : String) (hseg : seg = "|   " ∨ seg = "    ")
    (r : List Char) :
    stripSpacers (seg.data ++ r) = ((stripSpacers r).1 + 1, (stripSpacers r).2) := by
  rcases hseg with rfl | rfl <;> rfl

theorem stripSpacers_conn (conn : String) (hc : conn = "|--" ∨ conn = "\\--")
    (post : List Char) :
    stripSpacers (conn.data ++ post) = (0, conn.data ++ post) := by
  rcases hc with rfl | rfl <;> rfl

theorem stripSpacers_join (spacers : List String)
    (hok : ∀ s ∈ spacers, s = "|   " ∨ s = "    ") (r : List Char)
    (hr : stripSpacers r = (0, r)) :
    stripSpacers ((String.join spacers).data ++ r) = (spacers.length, r) := by
  induction spacers with
  | nil =>
    show stripSpacers (("" : String).data ++ r) = (0, r)
    rw [show ("" : String).data = [] from rfl, List.nil_append]
    exact hr
  | cons seg rest ih =>
    rw [String.join_cons, String.data_append, List.append_assoc]
    rw [stripSpacers_seg seg (hok seg (List.mem_cons_self seg rest))]
    rw [ih (fun s hs => hok s (List.mem_cons_of_mem seg hs))]
    simp

theorem parseConnChars_eq (conn : String) (hc : conn = "|--" ∨ conn = "\\--")
    (post : List Char) :
    parseConnChars (conn.data ++ post) = some (dropOneSpace post) := by
  rcases hc with rfl | rfl <;> rfl

theorem parseLineChars_line (spacers : List String)
    (hok : ∀ s ∈ spacers, s = "|   " ∨ s = "    ")
    (conn : String) (hc : conn = "|--" ∨ conn = "\\--") (post : List Char) :
    parseLineChars ((String.join spacers).data ++ (conn.data ++ post)) =
      some (spacers.length, dropOneSpace post) := by
  rw [parseLineChars]
  rw [stripSpacers_join spacers hok (conn.data ++ post) (stripSpacers_conn conn hc post)]
  rw [parseConnChars_eq conn hc post]
  rfl

theorem conn_rev_dropWhile (conn : String) (hc : conn = "|--" ∨ conn = "\\--") :
    conn.data.reverse.dropWhile isWsChar = conn.data.reverse := by
  rcases hc with rfl | rfl <;> rfl

theorem dropEndWs_conn (conn : String) (hc : conn = "|--" ∨ conn = "\\--")
    (post : List Char) :
    ∃ post2, dropEndWs (conn.data ++ post) = conn.data ++ post2 := by
  by_cases hany : ∃ c ∈ post, isWsChar c = false
  · exact ⟨dropEndWs post, dropEndWs_append_of_any conn.data post hany⟩
  · refine ⟨[], ?_⟩
    rw [List.append_nil, dropEndWs, List.reverse_append]
    have hall : List.dropWhile isWsChar post.reverse = [] := by
      rw [List.dropWhile_eq_nil_iff]
      intro c hc2
      by_contra hm
      exact hany ⟨c, List.mem_reverse.mp hc2, by
        cases hcc : isWsChar c
        · rfl
        · rw [hcc] at hm; exact absurd rfl hm⟩
    rw [List.dropWhile_append, hall]
    simp only [List.isEmpty_nil, if_true]
    rw [conn_rev_dropWhile conn hc, List.reverse_reverse]

theorem dropEndWs_line (spacers : List String) (conn : String)
    (hc : conn = "|--" ∨ conn = "\\--") (post : List Char) :
    ∃ post2, dropEndWs ((String.join spacers).data ++ (conn.data ++ post)) =
      (String.join spacers).data ++ (conn.data ++ post2) := by
  have hconn : ∃ c ∈ conn.data ++ post, isWsChar c = false := by
    refine ⟨'-', ?_, rfl⟩
    apply List.mem_append_left
    rcases hc with rfl | rfl <;> simp
  rcases dropEndWs_conn conn hc post with ⟨post2, h2⟩
  exact ⟨post2, by rw [dropEndWs_append_of_any _ _ hconn, h2]⟩

theorem splitLinesData_noNL (cs : List Char) (h : '\n' ∉ cs) :
    splitLinesData cs = [cs] := by
  induction cs with
  | nil => rfl
  | cons c cs ih =>
    rw [splitLinesData,
      if_neg (fun hh => h (by rw [hh]; exact List.mem_cons_self _ _)),
      ih (fun hm => h (List.mem_cons_of_mem c hm))]

theorem splitLinesData_append (a b : List Char) (h : '\n' ∉ a) :
    splitLinesData (a ++ '\n' :: b) = a :: splitLinesData b := by
  induction a with
  | nil =>
    show splitLinesData ('\n' :: b) = [] :: splitLinesData b
    rw [splitLinesData, if_pos rfl]
  | cons c a ih =>
    show splitLinesData (c :: (a ++ '\n' :: b)) = _
    rw [splitLinesData,
      if_neg (fun hh => h (by rw [hh]; exact List.mem_cons_self _ _)),
      ih (fun hm => h (List.mem_cons_of_mem c hm))]

theorem splitLines_flatten :
    ∀ (lines : List (List Char)) (head : List Char), '\n' ∉ head →
      (∀ l ∈ lines, '\n' ∉ l) →
      splitLinesData (head ++ (lines.map (fun l => '\n' :: l)).flatten) =
        head :: lines := by
  intro lines
  induction lines with
  | nil =>
    intro head hh _
    rw [List.map_nil, List.flatten_nil, List.append_nil]
    exact splitLinesData_noNL head hh
  | cons l ls ih =>
    intro head hh hl
    rw [List.map_cons, List.flatten_cons]
    have : head ++ ('\n' :: l ++ (ls.map (fun l => '\n' :: l)).flatten) =
        head ++ '\n' :: (l ++ (ls.map (fun l => '\n' :: l)).flatten) := by simp
    rw [this, splitLinesData_append head _ hh]
    rw [ih l (hl l (List.mem_cons_self l ls)) (fun x hx => hl x (List.mem_cons_of_mem l hx))]

/-- A printable line of the export: it parses to its depth, it still
parses to the same depth after trailing-whitespace removal, it contains a
non-whitespace character, and it contains no newline. -/
def GoodLine (d : Nat) (l : List Char) : Prop :=
  (∃ lbl, parseLineChars l = some (d, lbl)) ∧
  (∃ lbl, parseLineChars (dropEndWs l) = some (d, lbl)) ∧
  (∃ c ∈ l, isWsChar c = false) ∧ '\n' ∉ l

theorem noNL_label (t : TreeNode) (h : TreeNode.noNL t = true) :
    '\n' ∉ t.label.data := by
  cases t with
  | node l cs =>
    rw [TreeNode.noNL, Bool.and_eq_true] at h
    intro hm
    have h2 := List.all_eq_true.mp h.1 _ hm
    simp at h2

theorem noNL_children (t : TreeNode) (h : TreeNode.noNL t = true) :
    noNLList t.children = true := by
  cases t with
  | node l cs =>
    rw [TreeNode.noNL, Bool.and_eq_true] at h
    exact h.2

theorem noNL_effLabel (t : TreeNode) (h : TreeNode.noNL t = true) :
    '\n' ∉ (effLabel t).data := by
  rw [effLabel]
  by_cases he : t.label = ""
  · rw [if_pos he]
    intro hm
    simp [inputPlaceholder] at hm
  · rw [if_neg he]
    exact noNL_label t h

theorem noNL_join_tokens (spacers : List String)
    (hok : ∀ s ∈ spacers, s = "|   " ∨ s = "    ") :
    '\n' ∉ (String.join spacers).data := by
  induction spacers with
  | nil => intro hm; cases hm
  | cons seg rest ih =>
    rw [String.join_cons, String.data_append]
    intro hm
    rcases List.mem_append.mp hm with hm1 | hm2
    · rcases hok seg (List.mem_cons_self seg rest) with rfl | rfl <;> simp at hm1
    · exact ih (fun s hs => hok s (List.mem_cons_of_mem seg hs)) hm2

theorem noNL_conn (conn : String) (hc : conn = "|--" ∨ conn = "\\--") :
    '\n' ∉ conn.data := by
  rcases hc with rfl | rfl <;> intro hm <;> simp at hm

/-- Every line of the trace is a good line, and the depth sequence of
the trace is the pre-order depth sequence of the forest. -/
theorem annots_lines_good :
    ∀ (ts : List TreeNode) (base : List Nat) (i : Nat) (spacers : List String),
      (∀ s ∈ spacers, s = "|   " ∨ s = "    ") → noNLList ts = true →
      List.Forall₂ GoodLine (forestDepths spacers.length ts)
        ((annotsAux pfxTokens base i spacers ts).map
          (fun e => (e.2.2 ++ " " ++ effLabel e.2.1).data))
  | [] => by
    intro base i spacers _ _
    rw [annotsAux_nil, forestDepths, List.map_nil]
    exact List.Forall₂.nil
  | t :: rest => by
    intro base i spacers hok hnl
    rw [noNLList, Bool.and_eq_true] at hnl
    rw [annotsAux_cons, forestDepths, List.map_cons, List.map_append]
    have hconn : (if rest.isEmpty then pfxTokens.branch_last else pfxTokens.branch) = "|--" ∨
        (if rest.isEmpty then pfxTokens.branch_last else pfxTokens.branch) = "\\--" := by
      cases rest.isEmpty
      · exact Or.inl rfl
      · exact Or.inr rfl
    have hseg : (if rest.isEmpty then pfxTokens.spacer_empty else pfxTokens.spacer_branch) = "|   " ∨
        (if rest.isEmpty then pfxTokens.spacer_empty else pfxTokens.spacer_branch) = "    " := by
      cases rest.isEmpty
      · exact Or.inl rfl
      · exact Or.inr rfl
    apply List.Forall₂.cons
    · -- the head line is good
      have hdata : ((String.join spacers ++
            (if rest.isEmpty then pfxTokens.branch_last else pfxTokens.branch)) ++
            " " ++ effLabel t).data =
          (String.join spacers).data ++
            ((if rest.isEmpty then pfxTokens.branch_last else pfxTokens.branch).data ++
              (' ' :: (effLabel t).data)) := by
        simp [String.data_append]
      rw [hdata]
      refine ⟨⟨dropOneSpace (' ' :: (effLabel t).data),
        parseLineChars_line spacers hok _ hconn _⟩, ?_, ?_, ?_⟩
      · rcases dropEndWs_line spacers _ hconn (' ' :: (effLabel t).data) with ⟨post2, h2⟩
        rw [h2]
        exact ⟨dropOneSpace post2, parseLineChars_line spacers hok _ hconn _⟩
      · refine ⟨'-', ?_, rfl⟩
        apply List.mem_append_right
        apply List.mem_append_left
        rcases hconn with hcc | hcc <;> rw [hcc] <;> simp
      · intro hm
        rcases List.mem_append.mp hm with hm1 | hm2
        · exact noNL_join_tokens spacers hok hm1
        · rcases List.mem_append.mp hm2 with hm3 | hm4
          · exact noNL_conn _ hconn hm3
          · rcases List.mem_cons.mp hm4 with hm5 | hm6
            · cases hm5
            · exact noNL_effLabel t hnl.1 hm6
    · -- the tail: child lines then sibling lines
      have hlen : (spacers ++
          [if rest.isEmpty then pfxTokens.spacer_empty else pfxTokens.spacer_branch]).length =
          spacers.length + 1 := by simp
      have ih1 := annots_lines_good t.children (base ++ [i]) 0
        (spacers ++ [if rest.isEmpty then pfxTokens.spacer_empty else pfxTokens.spacer_branch])
        (by
          intro s hs
          rcases List.mem_append.mp hs with hs1 | hs2
          · exact hok s hs1
          · rcases List.mem_cons.mp hs2 with rfl | hs3
            · exact hseg
            · cases hs3)
        (noNL_children t hnl.1)
      rw [hlen] at ih1
      have ih2 := annots_lines_good rest base (i + 1) spacers hok hnl.2
      exact List.rel_append ih1 ih2
  termination_by ts => sizeOf ts
  decreasing_by
    · have h := TreeNode.sizeOf_children_lt t
      simp only [List.cons.sizeOf_spec]; omega
    · simp only [List.cons.sizeOf_spec]; omega

/-- Parsing the printable lines (with the final one right-trimmed, as the
overall trim does) succeeds and returns exactly the depth sequence. -/
theorem parse_good_lines :
    ∀ (ls : List (List Char)) (ds : List Nat), List.Forall₂ GoodLine ds ls →
      ∃ es, parseLinesAux (modifyLast dropEndWs ls) = some es ∧
        es.map Prod.fst = ds
  | [] => by
    intro ds h
    cases h
    exact ⟨[], rfl, rfl⟩
  | [l] => by
    intro ds h
    cases h with
    | cons hg htail =>
      cases htail
      rcases hg.2.1 with ⟨lbl, hp⟩
      refine ⟨[(_, lbl)], ?_, rfl⟩
      show parseLinesAux [dropEndWs l] = _
      rw [parseLinesAux, hp, parseLinesAux]
  | l :: l2 :: rest => by
    intro ds h
    cases h with
    | cons hg htail =>
      rcases hg.1 with ⟨lbl, hp⟩
      rcases parse_good_lines (l2 :: rest) _ htail with ⟨es, hes, hds⟩
      refine ⟨(_, lbl) :: es, ?_, by rw [List.map_cons, hds]⟩
      show parseLinesAux (l :: modifyLast dropEndWs (l2 :: rest)) = _
      rw [parseLinesAux, hp, hes]

theorem shape_node_eq (t : TreeNode) :
    TreeNode.shape t = Shape.node (shapeList t.children) := by
  cases t
  rfl

/-- Rebuilding from the pre-order depth sequence of a forest recovers the
forest's shape and consumes exactly the forest's entries. -/
theorem buildForest_spec :
    ∀ (ts : List TreeNode) (d : Nat) (es tail : List (Nat × List Char)) (fuel : Nat),
      es.map Prod.fst = forestDepths d ts →
      (∀ e, tail.head? = some e → e.1 < d) →
      es.length ≤ fuel →
      ∃ fs, buildForest fuel d (es ++ tail) = (fs, tail) ∧
        shapeList fs = shapeList ts
  | [] => by
    intro d es tail fuel hd htail _
    rw [forestDepths] at hd
    rw [List.map_eq_nil] at hd
    subst hd
    rw [List.nil_append]
    cases fuel with
    | zero => exact ⟨[], rfl, rfl⟩
    | succ fuel =>
      cases tail with
      | nil => exact ⟨[], rfl, rfl⟩
      | cons e tl =>
        refine ⟨[], ?_, rfl⟩
        rw [buildForest]
        obtain ⟨dep, lbl⟩ := e
        rw [if_neg]
        intro hdep
        have := htail (dep, lbl) rfl
        simp at this
        omega
  | t :: rest => by
    intro d es tail fuel hd htail hfuel
    rw [forestDepths] at hd
    cases es with
    | nil => cases hd
    | cons e0 es2 =>
      obtain ⟨dep, lbl⟩ := e0
      rw [List.map_cons] at hd
      injection hd with he0 hes2
      have hdep : dep = d := he0
      subst hdep
      rcases List.map_eq_append_iff.mp hes2 with ⟨es3, es4, hsplit, h3, h4⟩
      subst hsplit
      cases fuel with
      | zero => simp at hfuel
      | succ fuel =>
        show ∃ fs, buildForest (fuel + 1) dep ((dep, lbl) :: (es3 ++ es4 ++ tail)) = _ ∧ _
        rw [buildForest, if_pos rfl]
        have hlentot : es3.length + es4.length + 1 ≤ fuel + 1 := by
          simp at hfuel
          omega
        have hrec1 : ∃ fs1, buildForest fuel (dep + 1) (es3 ++ (es4 ++ tail)) =
            (fs1, es4 ++ tail) ∧ shapeList fs1 = shapeList t.children := by
          apply buildForest_spec t.children (dep + 1) es3 (es4 ++ tail) fuel h3
          · intro e he
            cases es4 with
            | nil =>
              simp at he
              have := htail e he
              omega
            | cons e4 es5 =>
              simp at he
              cases rest with
              | nil => rw [forestDepths, List.map_cons] at h4; cases h4
              | cons r rs =>
                rw [forestDepths, List.map_cons] at h4
                injection h4 with h5 _
                rw [← he]
                omega
          · omega
        rcases hrec1 with ⟨fs1, hb1, hs1⟩
        have hrec2 : ∃ fs2, buildForest fuel dep (es4 ++ tail) =
            (fs2, tail) ∧ shapeList fs2 = shapeList rest := by
          apply buildForest_spec rest dep es4 tail fuel h4 htail
          omega
        rcases hrec2 with ⟨fs2, hb2, hs2⟩
        rw [List.append_assoc, hb1]
        simp only
        rw [hb2]
        refine ⟨TreeNode.node ⟨lbl⟩ fs1 :: fs2, rfl, ?_⟩
        rw [shapeList, shapeList, hs2]
        rw [show TreeNode.shape (TreeNode.node ⟨lbl⟩ fs1) = Shape.node (shapeList fs1) from rfl]
        rw [hs1, ← shape_node_eq]
  termination_by ts => sizeOf ts
  decreasing_by
    · have h := TreeNode.sizeOf_children_lt t
      simp only [List.cons.sizeOf_spec]; omega
    · simp only [List.cons.sizeOf_spec]; omega

theorem treeToString_data (cfg : PfxTokens) (rootPh : String) (t : TreeNode) :
    (treeToString cfg rootPh t).data =
      jsTrimData ((if t.label = "" then rootPh else t.label).data ++
        (((annotsAux cfg [] 0 [] t.children).map
          (fun e => (e.2.2 ++ " " ++ effLabel e.2.1).data)).map
            (fun l => '\n' :: l)).flatten) := by
  rw [treeToString_eq_join]
  show jsTrimData _ = jsTrimData _
  congr 1
  rw [String.data_append, String.data_join, List.map_map, List.map_map]
  congr 1

theorem modifyLast_concat (f : α → α) :
    ∀ (l : List α) (a : α), modifyLast f (l ++ [a]) = l ++ [f a]
  | [], a => rfl
  | [b], a => rfl
  | b :: c :: rest, a => by
    show b :: modifyLast f ((c :: rest) ++ [a]) = b :: ((c :: rest) ++ [f a])
    exact congrArg (fun l => b :: l) (modifyLast_concat f (c :: rest) a)

theorem modifyLast_mem (f : α → α) :
    ∀ (l : List α) (x : α), x ∈ modifyLast f l → ∃ y ∈ l, x = y ∨ x = f y
  | [], x => by intro h; cases h
  | [a], x => by
    intro h
    rcases List.mem_singleton.mp h with rfl
    exact ⟨a, List.mem_singleton_self a, Or.inr rfl⟩
  | a :: b :: rest, x => by
    intro h
    rcases List.mem_cons.mp h with rfl | h2
    · exact ⟨x, List.mem_cons_self x _, Or.inl rfl⟩
    · rcases modifyLast_mem f (b :: rest) x h2 with ⟨y, hy, hxy⟩
      exact ⟨y, List.mem_cons_of_mem a hy, hxy⟩

theorem forall₂_mem_right {R : α → β → Prop} {as : List α} {bs : List β}
    (h : List.Forall₂ R as bs) : ∀ b ∈ bs, ∃ a, R a b := by
  induction h with
  | nil => intro b hb; cases hb
  | cons hR _ ih =>
    intro b hb
    rcases List.mem_cons.mp hb with rfl | hb2
    · exact ⟨_, hR⟩
    · exact ih b hb2

theorem mem_of_mem_jsTrimData (c : Char) (cs : List Char)
    (h : c ∈ jsTrimData cs) : c ∈ cs := by
  have h1 : jsTrimData cs = dropEndWs (cs.dropWhile isWsChar) := rfl
  rw [h1] at h
  exact mem_of_mem_dropWhile isWsChar c cs (mem_of_mem_dropEndWs c _ h)

theorem jsTrimData_export (rootData : List Char) (lines : List (List Char))
    (hne : lines ≠ [])
    (hroot : ∃ c ∈ rootData, isWsChar c = false)
    (hlines : ∀ l ∈ lines, ∃ c ∈ l, isWsChar c = false) :
    jsTrimData (rootData ++ (lines.map (fun l => '\n' :: l)).flatten) =
      (rootData.dropWhile isWsChar) ++
        ((modifyLast dropEndWs lines).map (fun l => '\n' :: l)).flatten := by
  rcases List.eq_nil_or_concat lines with rfl | ⟨l0, ll, hcat⟩
  · exact absurd rfl hne
  · rw [List.concat_eq_append] at hcat
    subst hcat
    have h1 : jsTrimData (rootData ++ ((l0 ++ [ll]).map (fun l => '\n' :: l)).flatten) =
        dropEndWs (List.dropWhile isWsChar
          (rootData ++ ((l0 ++ [ll]).map (fun l => '\n' :: l)).flatten)) := rfl
    rw [h1, dropWhile_append_of_any isWsChar _ _ hroot]
    rw [List.map_append, List.flatten_append]
    have h2 : (([ll].map (fun l => '\n' :: l)).flatten) = '\n' :: ll := by simp
    rw [h2]
    have hll : ∃ c ∈ ll, isWsChar c = false := hlines ll (by simp)
    have h3 : List.dropWhile isWsChar rootData ++
        ((l0.map (fun l => '\n' :: l)).flatten ++ '\n' :: ll) =
        (List.dropWhile isWsChar rootData ++
          ((l0.map (fun l => '\n' :: l)).flatten ++ ['\n'])) ++ ll := by
      simp
    rw [h3, dropEndWs_append_of_any _ ll hll]
    rw [modifyLast_concat, List.map_append, List.flatten_append]
    have h4 : (([dropEndWs ll].map (fun l => '\n' :: l)).flatten) =
        '\n' :: dropEndWs ll := by simp
    rw [h4]
    simp

/-- C5 (amended): for every tree whose labels contain no newline (an
invariant of text-input values, whose sanitization strips line breaks),
with a newline-free root placeholder, and whose effective root label
contains at least one non-whitespace character, re-parsing the export by
its indentation/connector pattern recovers exactly the original
parent/child relationships and the original left-to-right sibling order
(the tree's shape).  Without the root-label condition the claim fails:
a whitespace-only root label is deleted by the final trim, collapsing
the first branch line into the root position. -/
theorem export_parse_roundtrip_shape (rootPh : String) (t : TreeNode)
    (hNL : TreeNode.noNL t = true)
    (hPh : rootPh.data.all (fun c => ! (c == '\n')) = true)
    (hRoot : ((if t.label = "" then rootPh else t.label).data.any
      (fun c => ! isWsChar c)) = true) :
    ∃ t2, parseTree (treeToString pfxTokens rootPh t) = some t2 ∧
      TreeNode.shape t2 = TreeNode.shape t := by
  have hRootNL : '\n' ∉ (if t.label = "" then rootPh else t.label).data := by
    by_cases he : t.label = ""
    · rw [if_pos he]
      intro hm
      have h2 := List.all_eq_true.mp hPh _ hm
      simp at h2
    · rw [if_neg he]
      exact noNL_label t hNL
  have hRootAny : ∃ c ∈ (if t.label = "" then rootPh else t.label).data,
      isWsChar c = false := by
    rcases List.any_eq_true.mp hRoot with ⟨c, hc, hcp⟩
    refine ⟨c, hc, ?_⟩
    revert hcp
    cases isWsChar c <;> simp
  have hGood : List.Forall₂ GoodLine (forestDepths 0 t.children)
      ((annotsAux pfxTokens [] 0 [] t.children).map
        (fun e => (e.2.2 ++ " " ++ effLabel e.2.1).data)) := by
    have h := annots_lines_good t.children [] 0 []
      (by intro s hs; cases hs) (noNL_children t hNL)
    simpa using h
  cases hcs : t.children with
  | nil =>
    have hsplit : splitLinesData (treeToString pfxTokens rootPh t).data =
        [jsTrimData (if t.label = "" then rootPh else t.label).data] := by
      rw [treeToString_data, hcs, annotsAux_nil]
      simp only [List.map_nil, List.flatten_nil, List.append_nil]
      apply splitLinesData_noNL
      intro hm
      exact hRootNL (mem_of_mem_jsTrimData _ _ hm)
    refine ⟨TreeNode.node
      ⟨jsTrimData (if t.label = "" then rootPh else t.label).data⟩ [], ?_, ?_⟩
    · rw [parseTree, hsplit]
      rfl
    · rw [shape_node_eq, shape_node_eq, hcs]
      rfl
  | cons c0 crest =>
    set L := (annotsAux pfxTokens [] 0 [] t.children).map
      (fun e => (e.2.2 ++ " " ++ effLabel e.2.1).data) with hLdef
    have hLne : L ≠ [] := by
      rw [hLdef, hcs, annotsAux_cons]
      simp
    have hLnoNL : ∀ l ∈ L, '\n' ∉ l := by
      intro l hl
      rcases forall₂_mem_right hGood l hl with ⟨d, hgl⟩
      exact hgl.2.2.2
    have hLany : ∀ l ∈ L, ∃ c ∈ l, isWsChar c = false := by
      intro l hl
      rcases forall₂_mem_right hGood l hl with ⟨d, hgl⟩
      exact hgl.2.2.1
    have htrim := jsTrimData_export
      (if t.label = "" then rootPh else t.label).data L hLne hRootAny hLany
    have hsplit : splitLinesData (treeToString pfxTokens rootPh t).data =
        (((if t.label = "" then rootPh else t.label).data.dropWhile isWsChar) ::
          modifyLast dropEndWs L) := by
      rw [treeToString_data, htrim]
      apply splitLines_flatten
      · intro hm
        exact hRootNL (mem_of_mem_dropWhile isWsChar _ _ hm)
      · intro l hl
        rcases modifyLast_mem dropEndWs L l hl with ⟨y, hy, hcase⟩
        rcases hcase with h1 | h1
        · rw [h1]
          exact hLnoNL y hy
        · rw [h1]
          intro hm
          exact hLnoNL y hy (mem_of_mem_dropEndWs _ _ hm)
    rcases parse_good_lines L (forestDepths 0 t.children) hGood with ⟨es, hes, hds⟩
    rcases buildForest_spec t.children 0 es [] es.length hds
      (by intro e he; cases he) (Nat.le_refl _) with ⟨fs, hbf, hshape⟩
    rw [List.append_nil] at hbf
    refine ⟨TreeNode.node
      ⟨(if t.label = "" then rootPh else t.label).data.dropWhile isWsChar⟩ fs, ?_, ?_⟩
    · have hstep : parseTree (treeToString pfxTokens rootPh t) =
          (parseLinesAux (modifyLast dropEndWs L)).bind fun es2 =>
            match buildForest es2.length 0 es2 with
            | (forest, leftover) =>
              if leftover.isEmpty then
                some (TreeNode.node
                  ⟨(if t.label = "" then rootPh else t.label).data.dropWhile isWsChar⟩
                  forest)
              else none := by
        rw [parseTree, hsplit]
      rw [hstep, hes]
      show (match buildForest es.length 0 es with
        | (forest, leftover) =>
          if leftover.isEmpty then
            some (TreeNode.node
              ⟨(if t.label = "" then rootPh else t.label).data.dropWhile isWsChar⟩
              forest)
          else none) = _
      rw [hbf]
      rfl
    · rw [shape_node_eq, shape_node_eq]
      show Shape.node (shapeList fs) = _
      rw [hshape]

/-- C5 counterexample input: a tree whose root label is a single space
(typable into the root input) with one child. -/
def wsRootTree : TreeNode := TreeNode.node " " [TreeNode.node "a" []]

/-- C5 as stated (for every tree) is false on the code: exporting
`wsRootTree` yields `" \n\-- a"`, which `toString`'s final trim collapses
to `"\-- a"`; the root line is gone, so re-parsing by the
indentation/connector pattern yields a childless root — the original
parent/child relationship is not recovered (and no parser could recover
it: the export equals that of a childless tree). -/
theorem roundtrip_shape_cex :
    (parseTree (treeToString pfxTokens "Project Title" wsRootTree)).map TreeNode.shape ≠
      some (TreeNode.shape wsRootTree) := by
  intro h
  have h2 : some (Shape.node []) = some (Shape.node [Shape.node []]) := h
  rw [Option.some.injEq] at h2
  have h3 := congrArg (fun sh => match sh with | Shape.node cs => cs) h2
  exact List.noConfusion h3

/-- Witness for the amended C5 at a concrete input. -/
theorem export_parse_roundtrip_shape_witness :
    ∃ t2, parseTree (treeToString pfxTokens "Project Title" sampleTree) = some t2 ∧
      TreeNode.shape t2 = TreeNode.shape sampleTree :=
  export_parse_roundtrip_shape "Project Title" sampleTree (by decide) (by decide)
    (by decide)
